import Mathlib

/-!
Verification development for the `pave` repository's verification-spec
extraction core (`src/verification.rs`).

Strings are embedded as `List Char`; a code block's content is embedded as the
list of its lines (the output of Rust's `str::lines`, which contains no
newline characters). Whitespace is `Char.isWhitespace`, the ASCII subset of
Rust's `char::is_whitespace`; all characters relevant here are ASCII.
-/

namespace Pave

/-- The character list of a string literal, used for concrete inputs. -/
def chars (s : String) : List Char := s.data

/-- Embedding of Rust `str::trim_start` on a line: drop leading whitespace. -/
def trimLeft : List Char → List Char
  | [] => []
  | c :: cs => if c.isWhitespace then trimLeft cs else c :: cs

/-- Embedding of Rust `str::trim_end` on a line: drop trailing whitespace. -/
def trimRight (l : List Char) : List Char := (trimLeft l.reverse).reverse

/-- Embedding of Rust `str::trim` (`line.trim()` in the source). -/
def trim (l : List Char) : List Char := trimRight (trimLeft l)

/-- Embedding of `trimmed.strip_prefix("$ ")` from the source:
`some` of the remainder when the list starts with the two characters
dollar-space, else `none`. -/
def strip_dollar : List Char → Option (List Char)
  | c1 :: c2 :: rest => if c1 = '$' ∧ c2 = ' ' then some rest else none
  | _ => none

/-- Embedding of `command_part.strip_suffix('\\')` from the source:
`some` of the list without its last character when that character is a
backslash, else `none`. -/
def strip_backslash (l : List Char) : Option (List Char) :=
  if l.getLast? = some '\\' then some l.dropLast else none

/-- The mutable state of the loop in `extract_commands_from_block`:
the emitted commands, the accumulator, and the continuation flag. -/
structure ExtractState where
  commands : List (List Char)
  current_command : List Char
  in_continuation : Bool
  deriving DecidableEq

/-- The `command_part` of one loop iteration: the trimmed line with a leading
dollar-space prompt stripped when present (src/verification.rs lines
119-124). -/
def fragment_of (trimmed : List Char) : List Char :=
  match strip_dollar trimmed with
  | some cmd => cmd
  | none => trimmed

/-- One iteration of the `for line in content.lines()` loop of
`extract_commands_from_block` (src/verification.rs lines 107-143). -/
def step (st : ExtractState) (line : List Char) : ExtractState :=
  if trim line = [] ∨ (trim line).head? = some '#' then
    if st.in_continuation = false ∧ st.current_command ≠ [] then
      { st with commands := st.commands ++ [trim st.current_command],
                current_command := [] }
    else st
  else
    match strip_backslash (fragment_of (trim line)) with
    | some without_backslash =>
        { st with
          current_command :=
            (if st.in_continuation then
              st.current_command ++ without_backslash
            else without_backslash) ++ [' '],
          in_continuation := true }
    | none =>
        if st.in_continuation then
          { commands := st.commands ++ [trim (st.current_command ++ fragment_of (trim line))],
            current_command := [],
            in_continuation := false }
        else
          { st with commands := st.commands ++ [fragment_of (trim line)] }

/-- The loop state before the first line: no commands, empty accumulator, not
in a continuation. -/
def initState : ExtractState :=
  { commands := [], current_command := [], in_continuation := false }

/-- Embedding of `extract_commands_from_block` (src/verification.rs lines
102-151): fold the loop body over the lines, then flush a non-empty
accumulator. -/
def extract_commands_from_block (content : List (List Char)) : List (List Char) :=
  if (content.foldl step initState).current_command ≠ [] then
    (content.foldl step initState).commands ++
      [trim (content.foldl step initState).current_command]
  else
    (content.foldl step initState).commands

/-- Embedding of `OutputMatcher` (src/verification.rs lines 50-57). -/
inductive OutputMatcher where
  | Contains (s : List Char)
  | Regex (s : List Char)
  | ExitCodeOnly
  deriving DecidableEq

/-- Embedding of `VerificationItem` (src/verification.rs lines 23-34);
`PathBuf` is embedded as `List Char`. -/
structure VerificationItem where
  command : List Char
  working_dir : Option (List Char)
  expected_exit_code : Option Int
  expected_output : Option OutputMatcher
  timeout_secs : Option Nat
  deriving DecidableEq

/-- Embedding of `impl Default for VerificationItem`
(src/verification.rs lines 36-46). -/
def VerificationItem.default : VerificationItem :=
  { command := []
    working_dir := none
    expected_exit_code := some 0
    expected_output := none
    timeout_secs := some 30 }

/-- Embedding of `VerificationSpec` (src/verification.rs lines 12-19). -/
structure VerificationSpec where
  source_file : List Char
  section_line : Nat
  items : List VerificationItem
  deriving DecidableEq

/-- Modelled from the spec: `CodeBlock` of the parser module (parser.rs is not
among the sources) — declared language tag, raw content (as its lines), and
the executability flag computed at parse time. -/
structure CodeBlock where
  language : Option (List Char)
  content : List (List Char)
  is_executable : Bool
  deriving DecidableEq

/-- Modelled from the spec: a `Section` of the parser module — heading text,
1-indexed heading line, and the fenced code blocks of its body. -/
structure DocSection where
  name : List Char
  start_line : Nat
  code_blocks : List CodeBlock
  deriving DecidableEq

/-- Modelled from the spec: `ParsedDoc` of the parser module — file path and
ordered sections. -/
structure ParsedDoc where
  path : List Char
  sections : List DocSection
  deriving DecidableEq

/-- Modelled from the spec: `ParsedDoc::get_section` — lookup by
case-sensitive exact heading text, returning the first match or none. -/
def ParsedDoc.get_section (doc : ParsedDoc) (name : List Char) : Option DocSection :=
  doc.sections.find? (fun s => s.name = name)

/-- The item list built by the `for block in &section.code_blocks` loop of
`extract_verification_spec` (src/verification.rs lines 72-83): commands of
executable blocks, each wrapped with the default fields. -/
def items_of_blocks : List CodeBlock → List VerificationItem
  | [] => []
  | b :: bs =>
      (if b.is_executable then
        (extract_commands_from_block b.content).map
          (fun c => { VerificationItem.default with command := c })
      else []) ++ items_of_blocks bs

/-- The commands of the executable blocks, flattened in order. -/
def commands_of_blocks : List CodeBlock → List (List Char)
  | [] => []
  | b :: bs =>
      (if b.is_executable then extract_commands_from_block b.content else []) ++
        commands_of_blocks bs

/-- Embedding of `extract_verification_spec` (src/verification.rs lines
63-94). -/
def extract_verification_spec (doc : ParsedDoc) : Option VerificationSpec :=
  match doc.get_section (chars "Verification") with
  | none => none
  | some sec =>
      if sec.code_blocks = [] then none
      else if items_of_blocks sec.code_blocks = [] then none
      else some { source_file := doc.path, section_line := sec.start_line,
                  items := items_of_blocks sec.code_blocks }

/-- A blank or comment-only line, the separator condition of the loop
(src/verification.rs line 111). -/
def is_sep (l : List Char) : Prop :=
  trim l = [] ∨ (trim l).head? = some '#'

instance (l : List Char) : Decidable (is_sep l) := by
  unfold is_sep
  exact inferInstance

/-- The loop invariant of `extract_commands_from_block`: every emitted command
is non-empty, and outside a continuation the accumulator is empty. -/
def Inv (st : ExtractState) : Prop :=
  (∀ c ∈ st.commands, c ≠ []) ∧ (st.in_continuation = false → st.current_command = [])

/-- A document whose Verification section holds one executable block with one
command, used to instantiate doc-level theorems. -/
def c1doc : ParsedDoc :=
  { path := chars "a.md",
    sections := [{ name := chars "Verification", start_line := 2,
                   code_blocks := [{ language := some (chars "bash"),
                                     content := [chars "cargo test"],
                                     is_executable := true }] }] }

/-- The spec extracted from `c1doc`. -/
def c1spec : VerificationSpec :=
  { source_file := chars "a.md", section_line := 2,
    items := [{ command := chars "cargo test", working_dir := none,
                expected_exit_code := some 0, expected_output := none,
                timeout_secs := some 30 }] }

/-- A Verification section with one executable and one non-executable block. -/
def c2sec : DocSection :=
  { name := chars "Verification", start_line := 6,
    code_blocks := [{ language := some (chars "bash"),
                      content := [chars "cargo build", chars "cargo test"],
                      is_executable := true },
                    { language := some (chars "json"),
                      content := [chars "x"],
                      is_executable := false }] }

/-- A document holding `c2sec`. -/
def c2doc : ParsedDoc :=
  { path := chars "b.md", sections := [c2sec] }

/-- A document whose only executable Verification block is a single backslash
line. -/
def c4doc : ParsedDoc :=
  { path := chars "c.md",
    sections := [{ name := chars "Verification", start_line := 1,
                   code_blocks := [{ language := some (chars "bash"),
                                     content := [chars "\\"],
                                     is_executable := true }] }] }

/-- A document whose Verification section holds one executable block with one
command, used to instantiate the default-fields theorem. -/
def c5doc : ParsedDoc :=
  { path := chars "t.md",
    sections := [{ name := chars "Verification", start_line := 1,
                   code_blocks := [{ language := some (chars "bash"),
                                     content := [chars "cargo test"],
                                     is_executable := true }] }] }

/-- The single item of the spec extracted from `c5doc`. -/
def c5item : VerificationItem :=
  { command := chars "cargo test", working_dir := none,
    expected_exit_code := some 0, expected_output := none,
    timeout_secs := some 30 }

/-- The spec extracted from `c5doc`. -/
def c5spec : VerificationSpec :=
  { source_file := chars "t.md", section_line := 1,
    items := [c5item] }

/-- The Verification section of `c10doc`: its only executable block holds a
comment line and a blank line. -/
def c10sec : DocSection :=
  { name := chars "Verification", start_line := 4,
    code_blocks := [{ language := some (chars "bash"),
                      content := [chars "# setup only", chars ""],
                      is_executable := true }] }

/-- A document whose Verification section's executable blocks contain only
separator lines. -/
def c10doc : ParsedDoc :=
  { path := chars "d.md", sections := [c10sec] }

theorem trimLeft_eq_nil_iff {l : List Char} :
    trimLeft l = [] ↔ ∀ c ∈ l, c.isWhitespace = true := by
  induction l with
  | nil => simp [trimLeft]
  | cons a as ih =>
    by_cases ha : a.isWhitespace = true
    · simp [trimLeft, ha, ih]
    · simp [trimLeft, ha]

theorem trimLeft_head?_not_ws :
    ∀ {l : List Char} {c : Char}, (trimLeft l).head? = some c → c.isWhitespace = false
  | [], _, h => by simp [trimLeft] at h
  | a :: as, c, h => by
    by_cases ha : a.isWhitespace = true
    · exact trimLeft_head?_not_ws (l := as) (by simpa [trimLeft, ha] using h)
    · rw [trimLeft, if_neg ha] at h
      simp only [List.head?_cons, Option.some.injEq] at h
      subst h
      simpa using ha

theorem mem_trimLeft_of_not_ws {c : Char} :
    ∀ {l : List Char}, c.isWhitespace = false → c ∈ l → c ∈ trimLeft l
  | [], _, h => by simp at h
  | a :: as, hc, h => by
    by_cases ha : a.isWhitespace = true
    · rw [trimLeft, if_pos ha]
      rcases List.mem_cons.mp h with rfl | h'
      · rw [ha] at hc; cases hc
      · exact mem_trimLeft_of_not_ws hc h'
    · rwa [trimLeft, if_neg ha]

theorem trim_ne_nil {l : List Char} {c : Char}
    (hc : c.isWhitespace = false) (h : c ∈ l) : trim l ≠ [] := by
  intro hnil
  rw [trim, trimRight, List.reverse_eq_nil_iff] at hnil
  have h1 : c ∈ trimLeft l := mem_trimLeft_of_not_ws hc h
  have h2 : c ∈ (trimLeft l).reverse := List.mem_reverse.mpr h1
  have h3 : c ∈ trimLeft (trimLeft l).reverse := mem_trimLeft_of_not_ws hc h2
  rw [hnil] at h3
  simp at h3

theorem trim_getLast?_not_ws {l : List Char} {c : Char}
    (h : (trim l).getLast? = some c) : c.isWhitespace = false := by
  rw [trim, trimRight, List.getLast?_reverse] at h
  exact trimLeft_head?_not_ws h

theorem trimLeft_cons_of_not_ws {c : Char} {l : List Char}
    (hc : c.isWhitespace = false) : trimLeft (c :: l) = c :: l := by
  simp [trimLeft, hc]

theorem trimRight_eq_self {l : List Char} {c : Char}
    (h : l.getLast? = some c) (hc : c.isWhitespace = false) : trimRight l = l := by
  rw [trimRight]
  have hh : l.reverse.head? = some c := by rw [List.head?_reverse]; exact h
  cases hr : l.reverse with
  | nil => rw [hr] at hh; simp at hh
  | cons x xs =>
    rw [hr] at hh
    simp only [List.head?_cons, Option.some.injEq] at hh
    subst hh
    rw [trimLeft_cons_of_not_ws hc, ← hr, List.reverse_reverse]

theorem getLast?_cons_of_ne_nil {α : Type} {a : α} {l : List α} (h : l ≠ []) :
    (a :: l).getLast? = l.getLast? := by
  cases l with
  | nil => exact absurd rfl h
  | cons x xs => exact List.getLast?_cons_cons

theorem strip_dollar_eq_some :
    ∀ {t r : List Char}, strip_dollar t = some r → t = '$' :: ' ' :: r
  | [], _, h => by simp [strip_dollar] at h
  | [c1], _, h => by simp [strip_dollar] at h
  | c1 :: c2 :: rest, r, h => by
    simp only [strip_dollar] at h
    by_cases hc : c1 = '$' ∧ c2 = ' '
    · rw [if_pos hc] at h
      simp only [Option.some.injEq] at h
      obtain ⟨rfl, rfl⟩ := hc
      rw [h]
    · rw [if_neg hc] at h
      cases h

theorem fragment_of_getLast? {t : List Char} {c : Char}
    (ht : t.getLast? = some c) (hc : c.isWhitespace = false) :
    (fragment_of t).getLast? = some c := by
  rw [fragment_of]
  cases hd : strip_dollar t with
  | none => exact ht
  | some r =>
    have hanat := strip_dollar_eq_some hd
    subst hanat
    cases r with
    | nil =>
      have hsp : c = ' ' := by
        simp [List.getLast?] at ht
        exact ht.symm
      rw [hsp] at hc
      exact absurd hc (by decide)
    | cons x xs =>
      rwa [List.getLast?_cons_cons, List.getLast?_cons_cons] at ht

theorem exists_getLast?_of_ne_nil {α : Type} {l : List α} (h : l ≠ []) :
    ∃ c, l.getLast? = some c := by
  cases hl : l.getLast? with
  | none => exact absurd (List.getLast?_eq_none_iff.mp hl) h
  | some c => exact ⟨c, rfl⟩

theorem trim_append_ne_nil {x cp : List Char} {c : Char}
    (h : cp.getLast? = some c) (hc : c.isWhitespace = false) :
    trim (x ++ cp) ≠ [] :=
  trim_ne_nil hc
    (List.mem_append_right x (List.mem_of_mem_getLast? (by simp [Option.mem_def, h])))

theorem step_preserves_inv {st : ExtractState} {line : List Char}
    (h : Inv st) : Inv (step st line) := by
  obtain ⟨hcmds, hcur⟩ := h
  unfold step
  by_cases hsep : trim line = [] ∨ (trim line).head? = some '#'
  · rw [if_pos hsep]
    by_cases hflush : st.in_continuation = false ∧ st.current_command ≠ []
    · exact absurd (hcur hflush.1) hflush.2
    · rw [if_neg hflush]
      exact ⟨hcmds, hcur⟩
  · rw [if_neg hsep]
    have htne : trim line ≠ [] := fun h' => hsep (Or.inl h')
    obtain ⟨c, hlast⟩ := exists_getLast?_of_ne_nil htne
    have hcws : c.isWhitespace = false := trim_getLast?_not_ws hlast
    have hfrag : (fragment_of (trim line)).getLast? = some c :=
      fragment_of_getLast? hlast hcws
    cases hbs : strip_backslash (fragment_of (trim line)) with
    | some wb =>
      refine ⟨hcmds, fun hfalse => ?_⟩
      simp at hfalse
    | none =>
      by_cases hin : st.in_continuation = true
      · rw [if_pos hin]
        refine ⟨?_, fun _ => rfl⟩
        intro c' hc'
        rcases List.mem_append.mp hc' with h' | h'
        · exact hcmds c' h'
        · rw [List.mem_singleton.mp h']
          exact trim_append_ne_nil hfrag hcws
      · rw [if_neg hin]
        refine ⟨?_, hcur⟩
        intro c' hc'
        rcases List.mem_append.mp hc' with h' | h'
        · exact hcmds c' h'
        · rw [List.mem_singleton.mp h']
          intro hnil
          rw [hnil] at hfrag
          simp at hfrag

theorem foldl_inv : ∀ (content : List (List Char)) {st : ExtractState},
    Inv st → Inv (content.foldl step st)
  | [], _, h => h
  | _ :: ls, _, h => foldl_inv ls (step_preserves_inv h)

theorem step_sep_eq {st : ExtractState} {l : List Char} (hsep : is_sep l)
    (h : st.in_continuation = true ∨ st.current_command = []) : step st l = st := by
  have hno : ¬(st.in_continuation = false ∧ st.current_command ≠ []) := by
    intro hand
    rcases h with h1 | h1
    · rw [h1] at hand
      exact absurd hand.1 (by decide)
    · exact hand.2 h1
  have hsep' : trim l = [] ∨ (trim l).head? = some '#' := hsep
  unfold step
  rw [if_pos hsep', if_neg hno]

theorem foldl_sep_init : ∀ {content : List (List Char)},
    (∀ l ∈ content, is_sep l) → content.foldl step initState = initState
  | [], _ => rfl
  | l :: ls, h => by
    rw [List.foldl_cons, step_sep_eq (h l (List.mem_cons_self l ls)) (Or.inr rfl)]
    exact foldl_sep_init (fun l' hl' => h l' (List.mem_cons_of_mem l hl'))

theorem extract_sep {content : List (List Char)}
    (h : ∀ l ∈ content, is_sep l) : extract_commands_from_block content = [] := by
  unfold extract_commands_from_block
  rw [foldl_sep_init h]
  simp [initState]

theorem map_command_mk : ∀ (cs : List (List Char)),
    (cs.map (fun c => { VerificationItem.default with command := c })).map
      (fun i => i.command) = cs
  | [] => rfl
  | c :: cs => by
    simpa using map_command_mk cs

theorem items_map_command : ∀ (bs : List CodeBlock),
    (items_of_blocks bs).map (fun i => i.command) = commands_of_blocks bs
  | [] => rfl
  | b :: bs => by
    unfold items_of_blocks commands_of_blocks
    rw [List.map_append, items_map_command bs]
    by_cases hb : b.is_executable = true
    · rw [if_pos hb, if_pos hb, map_command_mk]
    · rw [if_neg hb, if_neg hb]
      simp

theorem items_eq_nil_iff (bs : List CodeBlock) :
    items_of_blocks bs = [] ↔ commands_of_blocks bs = [] := by
  constructor
  · intro h
    rw [← items_map_command bs, h]
    rfl
  · intro h
    have h2 := items_map_command bs
    rw [h] at h2
    exact List.map_eq_nil_iff.mp h2

theorem items_fields : ∀ (bs : List CodeBlock), ∀ i ∈ items_of_blocks bs,
    i.working_dir = none ∧ i.expected_exit_code = some 0 ∧
    i.expected_output = none ∧ i.timeout_secs = some 30
  | [] => by simp [items_of_blocks]
  | b :: bs => by
    intro i hi
    unfold items_of_blocks at hi
    rcases List.mem_append.mp hi with h | h
    · by_cases hb : b.is_executable = true
      · rw [if_pos hb] at h
        obtain ⟨cc, _, hmk⟩ := List.mem_map.mp h
        rw [← hmk]
        exact ⟨rfl, rfl, rfl, rfl⟩
      · rw [if_neg hb] at h
        simp at h
    · exact items_fields bs i h

theorem items_of_blocks_eq_nil_of_sep : ∀ {bs : List CodeBlock},
    (∀ b ∈ bs, b.is_executable = true → ∀ l ∈ b.content, is_sep l) →
    items_of_blocks bs = []
  | [], _ => rfl
  | b :: bs, h => by
    unfold items_of_blocks
    rw [items_of_blocks_eq_nil_of_sep (fun b' hb' => h b' (List.mem_cons_of_mem b hb'))]
    by_cases hb : b.is_executable = true
    · rw [if_pos hb, extract_sep (h b (List.mem_cons_self b bs) hb)]
      simp
    · rw [if_neg hb]
      rfl

theorem extract_spec_eq_some_iff {doc : ParsedDoc} {spec : VerificationSpec} :
    extract_verification_spec doc = some spec ↔
      ∃ sec, doc.get_section (chars "Verification") = some sec ∧
        sec.code_blocks ≠ [] ∧ items_of_blocks sec.code_blocks ≠ [] ∧
        spec = { source_file := doc.path, section_line := sec.start_line,
                 items := items_of_blocks sec.code_blocks } := by
  unfold extract_verification_spec
  cases hg : doc.get_section (chars "Verification") with
  | none => simp
  | some sec =>
    by_cases h1 : sec.code_blocks = []
    · simp [h1]
    · by_cases h2 : items_of_blocks sec.code_blocks = []
      · simp [h1, h2]
      · dsimp only
        rw [if_neg h1, if_neg h2]
        constructor
        · intro h
          exact ⟨sec, rfl, h1, h2, (Option.some.injEq _ _).mp h.symm⟩
        · rintro ⟨sec', hfix, -, -, rfl⟩
          obtain rfl : sec = sec' := (Option.some.injEq _ _).mp hfix
          rfl

theorem extract_spec_eq_none_iff {doc : ParsedDoc} :
    extract_verification_spec doc = none ↔
      doc.get_section (chars "Verification") = none ∨
      ∃ sec, doc.get_section (chars "Verification") = some sec ∧
        (sec.code_blocks = [] ∨ commands_of_blocks sec.code_blocks = []) := by
  unfold extract_verification_spec
  cases hg : doc.get_section (chars "Verification") with
  | none => simp
  | some sec =>
    by_cases h1 : sec.code_blocks = []
    · simp [h1]
    · by_cases h2 : items_of_blocks sec.code_blocks = []
      · simp [h1, h2, (items_eq_nil_iff sec.code_blocks).mp h2]
      · have h3 : ¬commands_of_blocks sec.code_blocks = [] :=
          fun hcn => h2 ((items_eq_nil_iff sec.code_blocks).mpr hcn)
        simp [h1, h2, h3]

theorem trim_dollar_space {t : List Char} {c : Char}
    (hlast : t.getLast? = some c) (hc : c.isWhitespace = false) :
    trim ('$' :: ' ' :: t) = '$' :: ' ' :: t := by
  have htne : t ≠ [] := by
    intro h
    rw [h] at hlast
    simp at hlast
  rw [trim, trimLeft_cons_of_not_ws (by decide)]
  exact trimRight_eq_self
    (by rw [List.getLast?_cons_cons, getLast?_cons_of_ne_nil htne]; exact hlast) hc

/-- C1: `extract_verification_spec` returns `none` exactly when there is no
section named "Verification", or that section has no code blocks, or
processing its executable code blocks produces zero commands; and a returned
spec never has an empty item list. -/
theorem C1_extract_none_iff_no_items (doc : ParsedDoc) :
    (extract_verification_spec doc = none ↔
      doc.get_section (chars "Verification") = none ∨
      ∃ sec, doc.get_section (chars "Verification") = some sec ∧
        (sec.code_blocks = [] ∨ commands_of_blocks sec.code_blocks = [])) ∧
    (∀ spec, extract_verification_spec doc = some spec → spec.items ≠ []) := by
  refine ⟨extract_spec_eq_none_iff, ?_⟩
  intro spec h
  obtain ⟨sec, -, -, hne, rfl⟩ := extract_spec_eq_some_iff.mp h
  exact hne

theorem C1_witness : c1spec.items ≠ [] :=
  (C1_extract_none_iff_no_items c1doc).2 c1spec (by decide)

/-- C2: when the Verification section yields at least one command, the
returned spec carries the document's path, the section's start line, and the
in-order flattening of the executable blocks' commands; item count equals
command count and order is preserved. -/
theorem C2_extract_some_shape (doc : ParsedDoc) (sec : DocSection)
    (h1 : doc.get_section (chars "Verification") = some sec)
    (h2 : commands_of_blocks sec.code_blocks ≠ []) :
    extract_verification_spec doc =
      some { source_file := doc.path, section_line := sec.start_line,
             items := items_of_blocks sec.code_blocks } ∧
    (items_of_blocks sec.code_blocks).map (fun i => i.command) =
      commands_of_blocks sec.code_blocks ∧
    (items_of_blocks sec.code_blocks).length =
      (commands_of_blocks sec.code_blocks).length := by
  have hitems : items_of_blocks sec.code_blocks ≠ [] :=
    fun h => h2 ((items_eq_nil_iff sec.code_blocks).mp h)
  have hcb : sec.code_blocks ≠ [] := by
    intro h
    rw [h] at h2
    exact h2 rfl
  refine ⟨extract_spec_eq_some_iff.mpr ⟨sec, h1, hcb, hitems, rfl⟩,
    items_map_command sec.code_blocks, ?_⟩
  rw [← items_map_command sec.code_blocks, List.length_map]

theorem C2_witness :
    extract_verification_spec c2doc =
      some { source_file := c2doc.path, section_line := c2sec.start_line,
             items := items_of_blocks c2sec.code_blocks } ∧
    (items_of_blocks c2sec.code_blocks).map (fun i => i.command) =
      commands_of_blocks c2sec.code_blocks ∧
    (items_of_blocks c2sec.code_blocks).length =
      (commands_of_blocks c2sec.code_blocks).length :=
  C2_extract_some_shape c2doc c2sec (by decide) (by decide)

/-- C3: the block content "a \" then "b" extracts to the single command
"a  b"; after the first line nothing is emitted yet — the backslash is
stripped, a space appended, and the state is in continuation mode. -/
theorem C3_continuation_join :
    extract_commands_from_block [chars "a \\", chars "b"] = [chars "a  b"] ∧
    step initState (chars "a \\") =
      { commands := [], current_command := chars "a  ", in_continuation := true } := by
  decide

/-- C4 counterexample: the executable block content consisting of the single
line "\" makes the extractor emit the empty command, and the resulting spec
holds a `VerificationItem` whose command is empty — refuting the claim that
no emitted command is ever empty. -/
theorem C4_counterexample :
    [] ∈ extract_commands_from_block [chars "\\"] ∧
    (extract_verification_spec c4doc).map (fun s => s.items.map (fun i => i.command)) =
      some [[]] := by
  decide

/-- C4 amended: every command emitted by `extract_commands_from_block` other
than possibly the last (the end-of-input flush of a whitespace-only
continuation accumulator) is non-empty. -/
theorem C4_commands_nonempty_except_last (content : List (List Char)) :
    ∀ c ∈ (extract_commands_from_block content).dropLast, c ≠ [] := by
  intro c hc
  have hinv : Inv (content.foldl step initState) :=
    foldl_inv content ⟨by simp [initState], fun _ => rfl⟩
  unfold extract_commands_from_block at hc
  by_cases hcur : (content.foldl step initState).current_command ≠ []
  · rw [if_pos hcur, List.dropLast_concat] at hc
    exact hinv.1 c hc
  · rw [if_neg hcur] at hc
    exact hinv.1 c ((List.dropLast_sublist _).subset hc)

theorem C4_witness : chars "a" ≠ [] :=
  C4_commands_nonempty_except_last [chars "a", chars "b"] (chars "a") (by decide)

/-- C5: every item of a returned spec carries the default fields: expected
exit code 0, timeout 30 seconds, no working directory, no output matcher. -/
theorem C5_default_fields (doc : ParsedDoc) (spec : VerificationSpec)
    (h : extract_verification_spec doc = some spec) :
    ∀ item ∈ spec.items,
      item.expected_exit_code = some 0 ∧ item.timeout_secs = some 30 ∧
      item.working_dir = none ∧ item.expected_output = none := by
  obtain ⟨sec, -, -, -, rfl⟩ := extract_spec_eq_some_iff.mp h
  intro item hi
  obtain ⟨hw, he, ho, ht⟩ := items_fields sec.code_blocks item hi
  exact ⟨he, ht, hw, ho⟩

theorem C5_witness :
    c5item.expected_exit_code = some 0 ∧ c5item.timeout_secs = some 30 ∧
    c5item.working_dir = none ∧ c5item.expected_output = none :=
  C5_default_fields c5doc c5spec (by decide) c5item (by decide)

/-- C6: a trimmed non-comment line prefixed with dollar-space is processed
exactly as the line without the prefix; "$ cargo test" extracts to
"cargo test", the same as "cargo test"; the prefix is stripped once. -/
theorem C6_prompt_stripping :
    (∀ (st : ExtractState) (t : List Char), trim t = t → t ≠ [] →
      t.head? ≠ some '#' → strip_dollar t = none →
      step st ('$' :: ' ' :: t) = step st t) ∧
    extract_commands_from_block [chars "$ cargo test"] = [chars "cargo test"] ∧
    extract_commands_from_block [chars "cargo test"] = [chars "cargo test"] ∧
    extract_commands_from_block [chars "$ $ echo hi"] = [chars "$ echo hi"] := by
  refine ⟨?_, by decide, by decide, by decide⟩
  intro st t ht hne hhash hsd
  obtain ⟨c, hlast⟩ := exists_getLast?_of_ne_nil hne
  have hlast' : (trim t).getLast? = some c := by rw [ht]; exact hlast
  have hc : c.isWhitespace = false := trim_getLast?_not_ws hlast'
  have htds : trim ('$' :: ' ' :: t) = '$' :: ' ' :: t := trim_dollar_space hlast hc
  have hfrag1 : fragment_of ('$' :: ' ' :: t) = t := by
    rw [fragment_of]
    have hstrip : strip_dollar ('$' :: ' ' :: t) = some t := by
      simp [strip_dollar]
    rw [hstrip]
  have hfrag2 : fragment_of t = t := by
    rw [fragment_of, hsd]
  have hsep1 : ¬('$' :: ' ' :: t = [] ∨ ('$' :: ' ' :: t).head? = some '#') := by
    simp
  have hsep2 : ¬(t = [] ∨ t.head? = some '#') := by
    intro h
    rcases h with h | h
    exacts [hne h, hhash h]
  unfold step
  rw [htds, ht, if_neg hsep1, if_neg hsep2, hfrag1, hfrag2]

theorem C6_witness :
    step initState ('$' :: ' ' :: chars "cargo") = step initState (chars "cargo") :=
  C6_prompt_stripping.1 initState (chars "cargo") (by decide) (by decide)
    (by decide) (by decide)

/-- C7 counterexample: for the content "a \", "# c", "b" the extractor skips
the comment line entirely and yields the single command "a  b" — the comment
line is not processed as a fragment of the continuing command (which would
yield the commands "a  # c" and "b"). -/
theorem C7_counterexample :
    extract_commands_from_block [chars "a \\", chars "# c", chars "b"] = [chars "a  b"] ∧
    extract_commands_from_block [chars "a \\", chars "# c", chars "b"] ≠
      [chars "a  # c", chars "b"] := by
  decide

/-- C7 amended: a blank or comment-only line occurring mid-continuation is
skipped entirely: the flush applies only when not mid-continuation, so the
line neither contributes text to the continuing command nor flushes or
terminates it — the loop state is unchanged. -/
theorem C7_comment_mid_continuation_skipped (st : ExtractState) (line : List Char)
    (hin : st.in_continuation = true) (hsep : is_sep line) :
    step st line = st :=
  step_sep_eq hsep (Or.inl hin)

theorem C7_witness :
    step { commands := [], current_command := chars "a ", in_continuation := true }
      (chars "# note") =
    { commands := [], current_command := chars "a ", in_continuation := true } :=
  C7_comment_mid_continuation_skipped
    { commands := [], current_command := chars "a ", in_continuation := true }
    (chars "# note") rfl (by decide)

/-- C8: outside a continuation, blank and comment-only lines are pure
separators: with an empty accumulator they leave the state unchanged,
consecutive separators collapse to one, and the concrete block
"cargo build", blank, blank, "cargo test" extracts to exactly those two
commands. -/
theorem C8_separators :
    extract_commands_from_block [chars "cargo build", [], [], chars "cargo test"] =
      [chars "cargo build", chars "cargo test"] ∧
    (∀ (st : ExtractState) (l : List Char), st.in_continuation = false →
      st.current_command = [] → is_sep l → step st l = st) ∧
    (∀ (st : ExtractState) (l l' : List Char), st.in_continuation = false →
      is_sep l → is_sep l' → step (step st l) l' = step st l) := by
  refine ⟨by decide, fun st l hin hcur hsep => step_sep_eq hsep (Or.inr hcur), ?_⟩
  intro st l l' hin hsep hsep'
  by_cases hcur : st.current_command = []
  · rw [step_sep_eq hsep (Or.inr hcur)]
    exact step_sep_eq hsep' (Or.inr hcur)
  · have hsepor : trim l = [] ∨ (trim l).head? = some '#' := hsep
    have hstep : step st l =
        { st with commands := st.commands ++ [trim st.current_command],
                  current_command := [] } := by
      unfold step
      rw [if_pos hsepor, if_pos ⟨hin, hcur⟩]
    rw [hstep]
    exact step_sep_eq hsep' (Or.inr rfl)

theorem C8_witness :
    step initState (chars "# comment") = initState :=
  C8_separators.2.1 initState (chars "# comment") rfl rfl (by decide)

/-- C9: the extractor strips only the dollar-space prompt, never the
greater-than prompt: outside a continuation a trimmed line starting with
greater-than (and not ending in a backslash) is emitted verbatim, and the
single-line content "> cargo test" extracts to the command "> cargo test". -/
theorem C9_angle_prompt_not_stripped :
    extract_commands_from_block [chars "> cargo test"] = [chars "> cargo test"] ∧
    (∀ (st : ExtractState) (t : List Char), st.in_continuation = false →
      trim t = t → t.head? = some '>' → strip_backslash t = none →
      step st t = { st with commands := st.commands ++ [t] }) := by
  refine ⟨by decide, ?_⟩
  intro st t hin ht hhead hbs
  have hne : t ≠ [] := by
    intro h
    rw [h] at hhead
    simp at hhead
  have hsd : strip_dollar t = none := by
    cases t with
    | nil => simp at hhead
    | cons x xs =>
      simp only [List.head?_cons, Option.some.injEq] at hhead
      subst hhead
      cases xs with
      | nil => rfl
      | cons y ys =>
        simp only [strip_dollar]
        rw [if_neg (fun h => absurd h.1 (by decide))]
  have hsep : ¬(t = [] ∨ t.head? = some '#') := by
    intro h
    rcases h with h | h
    · exact hne h
    · injection (hhead.symm.trans h) with h'
      exact absurd h' (by decide)
  have hfrag : fragment_of t = t := by
    rw [fragment_of, hsd]
  have hnin : ¬(st.in_continuation = true) := by
    rw [hin]
    decide
  unfold step
  rw [ht, if_neg hsep, hfrag, hbs]
  dsimp only
  rw [if_neg hnin]

theorem C9_witness :
    step initState (chars "> cargo test") =
      { initState with commands := initState.commands ++ [chars "> cargo test"] } :=
  C9_angle_prompt_not_stripped.2 initState (chars "> cargo test") rfl
    (by decide) (by decide) (by decide)

/-- C10: empty content, and content of only blank or comment lines, extract
to no commands; a document whose Verification section's executable blocks all
have such content yields no spec. -/
theorem C10_sep_only_content :
    extract_commands_from_block [] = [] ∧
    (∀ content, (∀ l ∈ content, is_sep l) → extract_commands_from_block content = []) ∧
    (∀ (doc : ParsedDoc) (sec : DocSection),
      doc.get_section (chars "Verification") = some sec →
      (∀ b ∈ sec.code_blocks, b.is_executable = true → ∀ l ∈ b.content, is_sep l) →
      extract_verification_spec doc = none) := by
  refine ⟨by decide, fun content h => extract_sep h, ?_⟩
  intro doc sec hget hsep
  have hitems : items_of_blocks sec.code_blocks = [] :=
    items_of_blocks_eq_nil_of_sep hsep
  exact extract_spec_eq_none_iff.mpr
    (Or.inr ⟨sec, hget, Or.inr ((items_eq_nil_iff sec.code_blocks).mp hitems)⟩)

theorem C10_witness : extract_verification_spec c10doc = none :=
  C10_sep_only_content.2.2 c10doc c10sec (by decide) (by decide)

end Pave
